import Mathlib

set_option maxRecDepth 40000
set_option maxHeartbeats 1000000

/-
Shallow embedding of src/python/tvm/relay/backend/contrib/tidl.py (the TIDL
backend compiler of this TVM fork).

Modelling conventions:
 * Python strings are `List Char` (kept kernel-computable; the library String
   functions do not reduce in the kernel).
 * Python float values are `ℚ`; an `Option ℚ` result distinguishes a finite
   value (`some q`) from an IEEE non-finite value such as inf or nan (`none`),
   which arises exactly when the code divides by zero.
 * Relay expressions are the inductive `RNode`/`RNodeList`; a module's global
   subgraph functions are the structure `Sub`, listed in the order in which
   `main` calls them (graph partitioning emits one call per subgraph).
 * C-library export calls are modelled by the list of argument records the
   Python code passes to them, in call order.
-/

namespace Tidl

/-! ### Character-list utilities (Python string operations) -/

/-- Python `pat in s` / `s.find(pat) != -1` / `s.rfind(pat) != -1`:
substring containment. -/
def containsTok (pat : List Char) : List Char → Bool
  | [] => pat.isEmpty
  | c :: rest => pat.isPrefixOf (c :: rest) || containsTok pat rest

/-- Python `s.split(pat, 1)`: `some (before, after)` splitting at the first
occurrence of `pat`; `none` when `pat` does not occur (Python then returns
the one-element list `[s]`, so indexing `[1]` raises). -/
def splitFirst (pat : List Char) : List Char → Option (List Char × List Char)
  | [] => if pat.isEmpty then some ([], []) else none
  | c :: rest =>
    if pat.isPrefixOf (c :: rest) then some ([], (c :: rest).drop pat.length)
    else
      match splitFirst pat rest with
      | none => none
      | some p => some (c :: p.1, p.2)

/-- Splitting at the last occurrence of `pat` (what `s.rfind(pat)` locates). -/
def splitLast (pat : List Char) : List Char → Option (List Char × List Char)
  | [] => if pat.isEmpty then some ([], []) else none
  | c :: rest =>
    match splitLast pat rest with
    | some p => some (c :: p.1, p.2)
    | none =>
      if pat.isPrefixOf (c :: rest) then some ([], (c :: rest).drop pat.length)
      else none

/-- Helper of `digitRuns`: accumulates the current run of digits. -/
def digitRunsAux : List Char → List Char → List (List Char)
  | cur, [] => if cur.isEmpty then [] else [cur.reverse]
  | cur, c :: rest =>
    if c.isDigit then digitRunsAux (c :: cur) rest
    else if cur.isEmpty then digitRunsAux [] rest
    else cur.reverse :: digitRunsAux [] rest

/-- Python `re.findall(r"\d+", s)`: the maximal runs of decimal digits. -/
def digitRuns (s : List Char) : List (List Char) := digitRunsAux [] s

/-- Decimal value of a digit string (used for strings produced by
`digitRuns`, hence all characters are digits). -/
def digitsVal (l : List Char) : Int :=
  l.foldl (fun a c => a * 10 + ((c.toNat : Int) - 48)) 0

/-- Python `int(s)`: strip surrounding whitespace, allow one optional sign,
then decimal digits; anything else raises `ValueError` (`none`). -/
def pyInt (s : List Char) : Option Int :=
  match ((s.dropWhile Char.isWhitespace).reverse.dropWhile Char.isWhitespace).reverse with
  | [] => none
  | '-' :: ds => if !ds.isEmpty && ds.all Char.isDigit then some (-(digitsVal ds)) else none
  | '+' :: ds => if !ds.isEmpty && ds.all Char.isDigit then some (digitsVal ds) else none
  | ds => if ds.all Char.isDigit then some (digitsVal ds) else none

/-- Python `s.split(sep)` for a one-character separator. -/
def splitOnSep (sep : Char) : List Char → List (List Char)
  | [] => [[]]
  | c :: rest =>
    if c = sep then [] :: splitOnSep sep rest
    else
      match splitOnSep sep rest with
      | [] => [[c]]
      | p :: ps => (c :: p) :: ps

/-- Python `sep.join(parts)` for a one-character separator. -/
def joinSep (sep : Char) : List (List Char) → List Char
  | [] => []
  | [x] => x
  | x :: xs => x ++ sep :: joinSep sep xs

/-- Fuel-driven decimal rendering helper (fuel `n + 1` always suffices). -/
def natToCharsAux : Nat → Nat → List Char
  | 0, _ => []
  | fuel + 1, n =>
    if n < 10 then [Nat.digitChar n]
    else natToCharsAux fuel (n / 10) ++ [Nat.digitChar (n % 10)]

/-- Python `str(n)` for a natural number. -/
def natToChars (n : Nat) : List Char := natToCharsAux (n + 1) n

/-! ### Relay expressions, `traverse_expr` and the node index map (C8, C9)

`relay.analysis.post_order_visit` is TVM-core code outside `src/`, so its
traversal order is modelled from the spec (§4.1: "single-pass post-order
traversal, visiting each argument/field of Call and Tuple nodes before the
node itself"); `traverse_expr` itself is translated from tidl.py:39-44. -/

mutual
inductive RNode where
  | opId : List Char → RNode
  | gvar : List Char → RNode
  | var : List Char → RNode
  | const : Int → RNode
  | call : RNode → RNodeList → RNode
  | tup : RNodeList → RNode
  | proj : RNode → Nat → RNode
deriving DecidableEq
inductive RNodeList where
  | nil : RNodeList
  | cons : RNode → RNodeList → RNodeList
deriving DecidableEq
end

def RNodeList.toList : RNodeList → List RNode
  | RNodeList.nil => []
  | RNodeList.cons x xs => x :: xs.toList

/-- Python `isinstance(node, tvm.ir.Op)`. -/
def isOpNode : RNode → Bool
  | RNode.opId _ => true
  | _ => false

/-- The direct sub-expressions of a node (a call's operator and arguments,
a tuple's fields, a projection's tuple). -/
def childrenOf : RNode → List RNode
  | RNode.call op args => op :: args.toList
  | RNode.tup fs => fs.toList
  | RNode.proj t _ => [t]
  | _ => []

mutual
/-- Modelled from the spec: the node sequence in which
`relay.analysis.post_order_visit` fires its callback — every argument/field
of a Call or Tuple node strictly before the node itself. -/
def postOrderSeq : RNode → List RNode
  | RNode.opId s => [RNode.opId s]
  | RNode.gvar s => [RNode.gvar s]
  | RNode.var s => [RNode.var s]
  | RNode.const i => [RNode.const i]
  | RNode.call op args =>
      postOrderSeq op ++ (postOrderSeqList args ++ [RNode.call op args])
  | RNode.tup fs => postOrderSeqList fs ++ [RNode.tup fs]
  | RNode.proj t i => postOrderSeq t ++ [RNode.proj t i]
/-- Modelled from the spec: callback sequence over a list of sibling nodes. -/
def postOrderSeqList : RNodeList → List RNode
  | RNodeList.nil => []
  | RNodeList.cons x xs => postOrderSeq x ++ postOrderSeqList xs
end

/-- Python `node in node_dict` on the insertion-ordered dictionary. -/
def hasKey (d : List (RNode × Nat)) (n : RNode) : Bool :=
  d.any (fun p => decide (p.1 = n))

/-- traverse_expr (tidl.py:39-44): skip already-indexed nodes and operator
identifiers, otherwise append the node with index `len(node_dict)`. -/
def traverse_expr (node : RNode) (node_dict : List (RNode × Nat)) :
    List (RNode × Nat) :=
  if hasKey node_dict node then node_dict
  else if isOpNode node then node_dict
  else node_dict ++ [(node, node_dict.length)]

/-- Feeding a visitation sequence through `traverse_expr`
(`post_order_visit(e, lambda node: traverse_expr(node, node_dict))`). -/
def dictFold (s : List RNode) (d : List (RNode × Nat)) : List (RNode × Nat) :=
  s.foldl (fun acc n => traverse_expr n acc) d

/-- The node index map built for an expression (tidl.py:1165-1166, 1201-1202). -/
def nodeIndexMap (e : RNode) : List (RNode × Nat) :=
  dictFold (postOrderSeq e) []

/-- Predicate `CB pre s`: every node of the visitation sequence `s` has all its direct
sub-expressions somewhere before it (in `pre` or earlier in `s`); the defining
property of post-order sequences. -/
def CB (pre : List RNode) : List RNode → Prop
  | [] => True
  | n :: rest => (∀ c ∈ childrenOf n, c ∈ pre) ∧ CB (pre ++ [n]) rest

/-- Invariant of the node dictionary: the indices are exactly `0..len-1` in
insertion order, the keys are distinct non-operator nodes, and every indexed
node's children are indexed strictly earlier. -/
abbrev GoodDict (d : List (RNode × Nat)) : Prop :=
  d.map Prod.snd = List.range d.length ∧
  (d.map Prod.fst).Nodup ∧
  (∀ p ∈ d, isOpNode p.1 = false) ∧
  (∀ p ∈ d, ∀ c ∈ childrenOf p.1, isOpNode c = false →
    ∃ q ∈ d, q.1 = c ∧ q.2 < p.2)

/-- All non-operator nodes of `pre` are already keys of `d`. -/
abbrev SeenDict (d : List (RNode × Nat)) (pre : List RNode) : Prop :=
  ∀ m ∈ pre, isOpNode m = false → hasKey d m = true

/-! ### Quantization (C6, C10): tensor_quant_flatten, tidl.py:189-222 -/

/-- Model of `np.amin` over the flattened batch-0 slice (the Python code never applies
it to an empty tensor; the `[]` case is an arbitrary total-function value). -/
def npamin : List ℚ → ℚ
  | [] => 0
  | x :: xs => xs.foldl min x

/-- Model of `np.amax` over the flattened batch-0 slice. -/
def npamax : List ℚ → ℚ
  | [] => 0
  | x :: xs => xs.foldl max x

/-- Model of `np.rint`: round to nearest, ties to even. -/
def rint (q : ℚ) : Int :=
  let f := ⌊q⌋
  let r := q - (f : ℚ)
  if r < 1 / 2 then f
  else if 1 / 2 < r then f + 1
  else if f % 2 = 0 then f else f + 1

/-- Model of `np.clip` on an integral value. -/
def npclip (lo hi x : Int) : Int := min (max x lo) hi

/-- tensor_quant_flatten (tidl.py:189-222) on the (already layout-normalized,
flattened) batch-0 slice `v`.  Float arithmetic is exact here except for
division by zero: `none` as the scale models the IEEE non-finite value
`255.0/0.0 = inf`, and a `none` element of the output buffer models the nan
produced by multiplying with that scale and pushing it through
`np.rint`/`np.clip`.  (The signed branch's divisor `max(abs(amin), amax)`
is strictly positive, so `none` can only arise on the unsigned branch.) -/
def tensor_quant_flatten (v : List ℚ) : List (Option Int) × Option ℚ × Nat :=
  if 0 ≤ npamin v then
    let d := npamax v
    let scale : Option ℚ := if d = 0 then none else some (255 / d)
    (v.map (fun x => scale.map (fun s => npclip 0 255 (rint (x * s)))), scale, 0)
  else
    let d := max |npamin v| (npamax v)
    let scale : Option ℚ := if d = 0 then none else some (128 / d)
    (v.map (fun x => scale.map (fun s => npclip (-128) 127 (rint (x * s)))), scale, 1)

/-! ### Calibration output parsing (C3): subgraph_calibration, tidl.py:548-570 -/

def errTokLow : List Char := "error".toList

def errTokUp : List Char := "ERROR".toList

/-- The marker phrase `"Number of output dataQ:"`. -/
def output_dataQ_token : List Char := "Number of output dataQ:".toList

def outQSepTok : List Char := ". Output dataQ:".toList

def endQTok : List Char := "End of output dataQ".toList

/-- Result of the output-dataQ parsing phase: `pyerror` models an unhandled
Python exception (`IndexError`/`ValueError`, the parsing code is outside the
`try` block), `failure` the explicit `return False, None`, and `ok` the
successful `return True, outq`. -/
inductive CalibOutcome where
  | pyerror : CalibOutcome
  | failure : CalibOutcome
  | ok : List Int → CalibOutcome
deriving DecidableEq

/-- Python `out_quants.split("End of output dataQ", 1)[0]`. -/
def quantsSegment (out_quants : List Char) : List Char :=
  match splitFirst endQTok out_quants with
  | none => out_quants
  | some p => p.1

/-- Python `list(map(int, re.findall(r"\d+", quants)))`. -/
def parsedScales (out_quants : List Char) : List Int :=
  (digitRuns (quantsSegment out_quants)).map digitsVal

/-- The output-scale parsing phase of subgraph_calibration (tidl.py:549-570),
given the captured stdout and stderr of the calibration subprocess.
`console_out.rfind(token) == -1` holds iff the token does not occur, which is
exactly when `splitFirst` returns `none`; the subsequent parsing, however,
uses `console_out.split(token, 1)[1]`, i.e. the text after the FIRST
occurrence of the marker. -/
def calib_find_outputs (console_out err : List Char) : CalibOutcome :=
  if !containsTok errTokLow console_out && !containsTok errTokUp console_out
      && decide (err = []) then
    match splitFirst output_dataQ_token console_out with
    | none => CalibOutcome.failure
    | some p =>
      match splitFirst outQSepTok p.2 with
      | none => CalibOutcome.pyerror
      | some q =>
        match pyInt q.1 with
        | none => CalibOutcome.pyerror
        | some num_outputs =>
          let outq := parsedScales q.2
          if num_outputs ≠ (outq.length : Int) then CalibOutcome.failure
          else CalibOutcome.ok outq
  else CalibOutcome.failure

/-- Modelled from the spec (§4.5 / §6): the same parsing phase but reading the
count and scales from the LAST occurrence of the marker phrase, as the spec
sentence "locates the last occurrence of a fixed marker phrase, parses the
declared output count and a following list of integers" describes. -/
def calib_find_outputs_lastOcc (console_out err : List Char) : CalibOutcome :=
  if !containsTok errTokLow console_out && !containsTok errTokUp console_out
      && decide (err = []) then
    match splitLast output_dataQ_token console_out with
    | none => CalibOutcome.failure
    | some p =>
      match splitFirst outQSepTok p.2 with
      | none => CalibOutcome.pyerror
      | some q =>
        match pyInt q.1 with
        | none => CalibOutcome.pyerror
        | some num_outputs =>
          let outq := parsedScales q.2
          if num_outputs ≠ (outq.length : Int) then CalibOutcome.failure
          else CalibOutcome.ok outq
  else CalibOutcome.failure

/-! ### Subgraph pruning (C2, C4): tidl.py:369-447

A module is modelled as the list of its non-`main` global subgraph functions
in the order `main` calls them (the partitioning pass emits exactly one call
per subgraph).  `SubgraphRemover.visit_call` either inlines a call whose
callee is listed for removal, or copies the callee — renamed and renumbered,
since both pruning passes use the default `rename_starting_from_0=True` —
into the new module. -/

structure Sub where
  name : List Char
  /-- Value of `attrs["Compiler"]` when the function has attributes, else `none`. -/
  compilerAttr : Option (List Char)
  /-- Result of `relay.analysis.get_total_mac_number` (external metric, carried as data). -/
  macs : Int
  numParams : Nat
  /-- whether the single parameter's checked type is a `relay.TupleType`. -/
  paramIsTuple : Bool
  /-- name hints of the variables occurring in the function body. -/
  varNames : List (List Char)
deriving DecidableEq

/-- Python `mod[name].attrs and mod[name].attrs["Compiler"] == compiler`. -/
def isTagged (compiler : List Char) (s : Sub) : Bool :=
  decide (s.compilerAttr = some compiler)

/-- Python `new_name = name.split('_')[0] + "_" + str(self.count)` (tidl.py:403). -/
def newNameOf (name : List Char) (count : Nat) : List Char :=
  ((splitOnSep '_' name).headD []) ++ '_' :: natToChars count

/-- VarRenamer.visit_var (tidl.py:374-378). -/
def renameVar (newName : List Char) (v : List Char) : List Char :=
  if joinSep '_' ((splitOnSep '_' v).take 2) ≠ newName then
    newName ++ '_' :: (splitOnSep '_' v).getD 2 []
  else v

/-- Copying a subgraph function under a new global name: VarRenamer over the
body plus the `global_symbol`/`GlobalVar` rename (tidl.py:410-414). -/
def renameSub (newName : List Char) (s : Sub) : Sub :=
  { s with name := newName, varNames := s.varNames.map (renameVar newName) }

/-- SubgraphRemover (tidl.py:380-418) over the sequence of subgraph calls in
`main`, with `rename_starting_from_0=True`: calls to removed subgraphs are
inlined (the callee is not copied into the new module), every other callee is
copied under the sequential name `prefix_count`. -/
def sgRemove (toRemove : List (List Char)) : List Sub → Nat → List Sub
  | [], _ => []
  | s :: rest, count =>
    if s.name ∈ toRemove then sgRemove toRemove rest count
    else renameSub (newNameOf s.name count) s :: sgRemove toRemove rest (count + 1)

/-- Python `l[:-k]` for `k ≥ 0` (note `l[:-0] = l[:0] = []`). -/
def pyNegSlice {α : Type} (l : List α) (k : Nat) : List α :=
  if k = 0 then [] else l.take (l.length - k)

def macsLe (a b : Sub) : Prop := a.macs ≤ b.macs

instance : DecidableRel macsLe := fun a b => inferInstanceAs (Decidable (a.macs ≤ b.macs))

/-- The names removed by PruneSubgraphs (tidl.py:434-443): tagged subgraphs
sorted by ascending MAC count, all but the last `num_subgraphs_to_keep`. -/
def removeNamesOf (compiler : List Char) (num_subgraphs_to_keep : Nat)
    (subs : List Sub) : List (List Char) :=
  (pyNegSlice (List.insertionSort macsLe (subs.filter (isTagged compiler)))
    num_subgraphs_to_keep).map Sub.name

/-- PruneSubgraphs (tidl.py:433-447). -/
def PruneSubgraphs (compiler : List Char) (num_subgraphs_to_keep : Nat)
    (subs : List Sub) : List Sub :=
  sgRemove (removeNamesOf compiler num_subgraphs_to_keep subs) subs 0

/-- The names removed by PruneSubgraphsWithMoreThanOneInput (tidl.py:421-428):
tagged subgraphs whose parameter count differs from 1 or whose single
parameter has tuple type. -/
def badArityNames (compiler : List Char) (subs : List Sub) : List (List Char) :=
  (subs.filter (fun s =>
    isTagged compiler s && (decide (s.numParams ≠ 1) || s.paramIsTuple))).map Sub.name

/-- PruneSubgraphsWithMoreThanOneInput (tidl.py:420-431). -/
def PruneSubgraphsWithMoreThanOneInput (compiler : List Char) (subs : List Sub) :
    List Sub :=
  sgRemove (badArityNames compiler subs) subs 0

/-- Number of subgraphs carrying the active compiler tag. -/
def countTagged (compiler : List Char) (subs : List Sub) : Nat :=
  (subs.filter (isTagged compiler)).length

/-- The subgraphs PruneSubgraphs keeps (before renaming). -/
def survivorsOf (compiler : List Char) (num_subgraphs_to_keep : Nat)
    (subs : List Sub) : List Sub :=
  subs.filter (fun s =>
    !decide (s.name ∈ removeNamesOf compiler num_subgraphs_to_keep subs))

/-! ### Sink-tuple export (C7): tidl_import_tuple_node, tidl.py:1097-1144 -/

/-- The `while imported_nodes < len(in_nodes)` loop, as a recursion on the
number of not-yet-imported inputs; fuel is the initial remainder (one loop
iteration consumes at least one input, so it suffices).  Each emitted pair
`(nodes_for_this_data_layer, new_node_ind)` stands for one
`tidlImportOutData(nodes_for_this_data_layer)` call together with its
`tidlImportLinkNodes` call whose record has `this_node = new_node_ind`. -/
def outDataChunksAux : Nat → Nat → Nat → List (Nat × Nat)
  | 0, _, _ => []
  | fuel + 1, remaining, new_node_ind =>
    if remaining = 0 then []
    else if remaining < 16 then [(remaining, new_node_ind)]
    else (16, new_node_ind) :: outDataChunksAux fuel (remaining - 16) (new_node_ind + 1)

def outDataChunks (remaining new_node_ind : Nat) : List (Nat × Nat) :=
  outDataChunksAux remaining remaining new_node_ind

/-- tidl_import_tuple_node (tidl.py:1097-1144), for a Tuple node whose
`find_out_nodes` result is `out_nodes` and whose `find_in_nodes` result is the
flattened list `in_nodes`: a true sink (no consumers) has its inputs chunked
into data layers of at most `MAX_NUM_OUTPUTS_PER_DATA_LAYER = 16`, with
synthetic node indices starting at `len(all_nodes) + 1`; a consumed tuple
emits nothing. -/
def tidl_import_tuple_node (numAllNodes : Nat) (out_nodes in_nodes : List Int) :
    List (Nat × Nat) :=
  if out_nodes.length = 0 then outDataChunks in_nodes.length (numAllNodes + 1)
  else []

/-! ### The orchestrator (C1, C5, C9): TIDLCompiler.enable, tidl.py:1294-1368 -/

/-- The inputs `enable` inspects besides the graphs themselves:
`numInputs = len(input)`, `toolsPathSet = (self.tidl_tools_path is not None)`,
and the two `os.path.exists` probes for the calibration executable
`eve_test_dl_algo_ref.out` and the import library `tidl_relayImport.so`. -/
structure EnableEnv where
  numInputs : Nat
  toolsPathSet : Bool
  calibToolExists : Bool
  importLibExists : Bool

/-- TIDLCompiler.enable (tidl.py:1294-1368) control skeleton.
`partitionPipeline` abstracts the pass pipeline of lines 1329-1342 (which
builds `mod` from `mod_orig` without mutating `mod_orig`), `importRelay` the
`TIDLImport.ImportRelayIR` outcome on the partitioned module.  The returned
integer is the documented status: 1 success, -1 failure, 0 skipped. -/
def enable {G : Type} (partitionPipeline : G → G) (importRelay : G → Bool)
    (mod_orig : G) (env : EnableEnv) : G × Int :=
  if 1 < env.numInputs then (mod_orig, -1)
  else
    let mod := partitionPipeline mod_orig
    if env.toolsPathSet then
      if env.calibToolExists && env.importLibExists then
        if importRelay mod then (mod, 1) else (mod_orig, -1)
      else (mod_orig, 0)
    else (mod_orig, 0)

/-- The TIDL-subgraph scan of ImportRelayIR (tidl.py:1164-1171): GlobalVar
nodes of `main`'s node dictionary whose name contains the target string. -/
def isGlobalVarWithTarget (target : List Char) : RNode → Option (List Char)
  | RNode.gvar s => if containsTok target s then some s else none
  | _ => none

def tidlSubgraphNames (target : List Char) (mainExpr : RNode) : List (List Char) :=
  ((nodeIndexMap mainExpr).map Prod.fst).filterMap (isGlobalVarWithTarget target)

/-- ImportRelayIR (tidl.py:1146-1257) entry gate: with zero TIDL subgraphs it
returns `False` (tidl.py:1173-1175); otherwise the per-subgraph import work,
abstracted as `restOfImport`, decides the result. -/
def ImportRelayIR (target : List Char) (mainExpr : RNode) (restOfImport : Bool) :
    Bool :=
  if (tidlSubgraphNames target mainExpr).isEmpty then false else restOfImport

/-! ### Concrete inputs used by witnesses and counterexamples -/

def tidlTarget : List Char := "tidl".toList

def c9main : RNode := RNode.var ("x".toList)

/-- Calibration stdout with TWO occurrences of the marker phrase and no
"error"/"ERROR" substring. -/
def c3cexConsole : List Char :=
  ("Number of output dataQ: 1. Output dataQ: 7End of output dataQ and later Number of output dataQ: 2. Output dataQ: 100, 200End of output dataQ").toList

/-- The spec's calibration-stdout scenario. -/
def c3specConsole : List Char :=
  ("preamble Number of output dataQ: 2. Output dataQ: 100, 200End of output dataQ trailer").toList

def c3wPre : List Char := ("preamble ").toList

def c3wLast : List Char := (" 2. Output dataQ: 100, 200End of output dataQ trailer").toList

def c3wCnt : List Char := (" 2").toList

def c3wQuants : List Char := (" 100, 200End of output dataQ trailer").toList

def c2cexSub : Sub := ⟨"tidl_0".toList, some ("tidl".toList), 5, 1, false, []⟩

def c4tagged : Sub :=
  ⟨"tidl_0".toList, some ("tidl".toList), 5, 1, false, ["tidl_0_i0".toList]⟩

/-- A subgraph partitioned for a different compiler (not TIDL-tagged). -/
def c4untagged : Sub :=
  ⟨"ccomp_7".toList, some ("ccomp".toList), 3, 1, false, ["ccomp_7_i0".toList]⟩

def c4subs : List Sub := [c4tagged, c4untagged]

/-! ## Helper lemmas -/

theorem foldl_min_le_init (xs : List ℚ) : ∀ a : ℚ, xs.foldl min a ≤ a := by
  induction xs with
  | nil => intro a; simp
  | cons x xs ih => intro a; exact le_trans (ih (min a x)) (min_le_left a x)

theorem foldl_min_le_mem (xs : List ℚ) : ∀ a x, x ∈ xs → xs.foldl min a ≤ x := by
  induction xs with
  | nil => intro a x hx; simp at hx
  | cons y ys ih =>
    intro a x hx
    rcases List.mem_cons.mp hx with h | h
    · subst h; exact le_trans (foldl_min_le_init ys (min a x)) (min_le_right a x)
    · exact ih (min a y) x h

theorem foldl_min_mem (xs : List ℚ) :
    ∀ a, xs.foldl min a = a ∨ xs.foldl min a ∈ xs := by
  induction xs with
  | nil => intro a; left; rfl
  | cons y ys ih =>
    intro a
    rw [List.foldl_cons]
    rcases ih (min a y) with h | h
    · rcases min_choice a y with hm | hm
      · left; rw [h, hm]
      · right; rw [h, hm]; exact List.mem_cons_self y ys
    · right; exact List.mem_cons_of_mem y h

theorem le_foldl_max_init (xs : List ℚ) : ∀ a : ℚ, a ≤ xs.foldl max a := by
  induction xs with
  | nil => intro a; simp
  | cons x xs ih => intro a; exact le_trans (le_max_left a x) (ih (max a x))

theorem le_foldl_max_mem (xs : List ℚ) : ∀ a x, x ∈ xs → x ≤ xs.foldl max a := by
  induction xs with
  | nil => intro a x hx; simp at hx
  | cons y ys ih =>
    intro a x hx
    rcases List.mem_cons.mp hx with h | h
    · subst h; exact le_trans (le_max_right a x) (le_foldl_max_init ys (max a x))
    · exact ih (max a y) x h

theorem foldl_max_mem (xs : List ℚ) :
    ∀ a, xs.foldl max a = a ∨ xs.foldl max a ∈ xs := by
  induction xs with
  | nil => intro a; left; rfl
  | cons y ys ih =>
    intro a
    rw [List.foldl_cons]
    rcases ih (max a y) with h | h
    · rcases max_choice a y with hm | hm
      · left; rw [h, hm]
      · right; rw [h, hm]; exact List.mem_cons_self y ys
    · right; exact List.mem_cons_of_mem y h

theorem npamin_le (v : List ℚ) (x : ℚ) (hx : x ∈ v) : npamin v ≤ x := by
  cases v with
  | nil => simp at hx
  | cons y ys =>
    rcases List.mem_cons.mp hx with h | h
    · subst h; exact foldl_min_le_init ys x
    · exact foldl_min_le_mem ys y x h

theorem npamin_mem (v : List ℚ) (h : v ≠ []) : npamin v ∈ v := by
  cases v with
  | nil => exact absurd rfl h
  | cons y ys =>
    rcases foldl_min_mem ys y with h1 | h1
    · rw [npamin, h1]; exact List.mem_cons_self y ys
    · rw [npamin]; exact List.mem_cons_of_mem y h1

theorem le_npamax (v : List ℚ) (x : ℚ) (hx : x ∈ v) : x ≤ npamax v := by
  cases v with
  | nil => simp at hx
  | cons y ys =>
    rcases List.mem_cons.mp hx with h | h
    · subst h; exact le_foldl_max_init ys x
    · exact le_foldl_max_mem ys y x h

theorem npamax_mem (v : List ℚ) (h : v ≠ []) : npamax v ∈ v := by
  cases v with
  | nil => exact absurd rfl h
  | cons y ys =>
    rcases foldl_max_mem ys y with h1 | h1
    · rw [npamax, h1]; exact List.mem_cons_self y ys
    · rw [npamax]; exact List.mem_cons_of_mem y h1

theorem npamin_le_npamax (v : List ℚ) (h : v ≠ []) : npamin v ≤ npamax v :=
  npamin_le v (npamax v) (npamax_mem v h)

/-- On the signed branch (some value is negative), the code's divisor
`max(abs(amin), amax)` coincides with the spec's `max(|min|, |max|)`. -/
theorem max_abs_eq (v : List ℚ) (h : v ≠ []) (hneg : npamin v < 0) :
    max |npamin v| (npamax v) = max |npamin v| |npamax v| := by
  rcases le_or_lt 0 (npamax v) with hp | hn
  · rw [abs_of_nonneg hp]
  · have h1 : |npamax v| ≤ |npamin v| := by
      rw [abs_of_neg hn, abs_of_neg hneg]
      exact neg_le_neg (npamin_le_npamax v h)
    have h2 : npamax v ≤ |npamin v| := le_trans (le_of_lt hn) (abs_nonneg _)
    rw [max_eq_left h2, max_eq_left h1]

theorem rint_intCast (z : Int) : rint ((z : ℤ) : ℚ) = z := by
  simp only [rint, Int.floor_intCast, sub_self]
  rw [if_pos (by norm_num : (0 : ℚ) < 1 / 2)]

theorem rint_neg64 : rint (-64 : ℚ) = -64 := by
  have h : ((-64 : ℚ)) = ((-64 : ℤ) : ℚ) := by norm_num
  rw [h, rint_intCast]

theorem rint_128 : rint (128 : ℚ) = 128 := by
  have h : ((128 : ℚ)) = ((128 : ℤ) : ℚ) := by norm_num
  rw [h, rint_intCast]

/-- Evaluation of the spec scenario `[-2.0, 4.0]`. -/
theorem tqf_concrete :
    tensor_quant_flatten [(-2 : ℚ), 4] = ([some (-64), some 127], some 32, 1) := by
  have hmin : npamin [(-2 : ℚ), 4] = -2 := by
    simp only [npamin, List.foldl]
    exact min_eq_left (by norm_num)
  have hmax : npamax [(-2 : ℚ), 4] = 4 := by
    simp only [npamax, List.foldl]
    exact max_eq_right (by norm_num)
  have habs : |(-2 : ℚ)| = 2 := by
    rw [abs_of_neg (by norm_num : (-2 : ℚ) < 0)]; norm_num
  have hncond : ¬ ((0 : ℚ) ≤ npamin [(-2 : ℚ), 4]) := by rw [hmin]; norm_num
  have hd : max |npamin [(-2 : ℚ), 4]| (npamax [(-2 : ℚ), 4]) = 4 := by
    rw [hmin, hmax, habs]; exact max_eq_right (by norm_num)
  have hr1 : (-2 : ℚ) * (128 / 4) = ((-64 : ℤ) : ℚ) := by norm_num
  have hr2 : (4 : ℚ) * (128 / 4) = ((128 : ℤ) : ℚ) := by norm_num
  have hs : (128 : ℚ) / 4 = 32 := by norm_num
  simp only [tensor_quant_flatten, if_neg hncond, hd,
    if_neg (by norm_num : (4 : ℚ) ≠ 0), List.map_cons, List.map_nil,
    Option.map_some', hr1, hr2, rint_intCast, hs]
  norm_num [npclip, rint_neg64, rint_128]

/-! ## C10 -/

/-- C10: tensor_quant_flatten does not guard its scale divisions — on an
all-zero batch-0 slice the unsigned branch is taken (`amin ≥ 0`) with divisor
`np.amax = 0`, so the scale `255.0/0.0` is non-finite (`none` in the model)
and every element of the quantized buffer is non-finite as well. -/
theorem tidl_C10 (v : List ℚ) (hne : v ≠ []) (hz : ∀ x ∈ v, x = 0) :
    0 ≤ npamin v ∧
    npamax v = 0 ∧
    (tensor_quant_flatten v).2.1 = none ∧
    (tensor_quant_flatten v).2.2 = 0 ∧
    ∀ o ∈ (tensor_quant_flatten v).1, o = none := by
  have hmin : npamin v = 0 := hz _ (npamin_mem v hne)
  have hmax : npamax v = 0 := hz _ (npamax_mem v hne)
  refine ⟨le_of_eq hmin.symm, hmax, ?_, ?_, ?_⟩
  · simp [tensor_quant_flatten, hmin, hmax]
  · simp [tensor_quant_flatten, hmin, hmax]
  · intro o ho
    simp [tensor_quant_flatten, hmin, hmax] at ho
    exact ho.2

theorem tidl_C10_witness :
    (tensor_quant_flatten [(0 : ℚ), 0]).2.1 = none ∧
    ∀ o ∈ (tensor_quant_flatten [(0 : ℚ), 0]).1, o = none := by
  have h := tidl_C10 [(0 : ℚ), 0] (by simp) (by simp)
  exact ⟨h.2.2.1, h.2.2.2.2⟩

/-! ## C6 -/

/-- C6: quantization paths of tensor_quant_flatten — a batch-0 slice with a
negative value takes the signed path (sign flag 1, scale
`128/max(|min|, |max|)`, elements rounded to nearest and clipped into
[-128, 127]); an all-nonnegative slice takes the unsigned path (sign flag 0,
scale `255/max`, clipped into [0, 255]); and quantizing `[-2.0, 4.0]` yields
scale 32 with buffer `[-64, 127]` (4·32 = 128 clipped to 127). -/
theorem tidl_C6 (v : List ℚ) (hne : v ≠ []) :
    ((∃ x ∈ v, x < 0) →
      (tensor_quant_flatten v).2.2 = 1 ∧
      (tensor_quant_flatten v).2.1 = some (128 / max |npamin v| |npamax v|) ∧
      (tensor_quant_flatten v).1 =
        v.map (fun x => some (npclip (-128) 127
          (rint (x * (128 / max |npamin v| |npamax v|)))))) ∧
    ((∀ x ∈ v, 0 ≤ x) → npamax v ≠ 0 →
      (tensor_quant_flatten v).2.2 = 0 ∧
      (tensor_quant_flatten v).2.1 = some (255 / npamax v) ∧
      (tensor_quant_flatten v).1 =
        v.map (fun x => some (npclip 0 255 (rint (x * (255 / npamax v)))))) ∧
    tensor_quant_flatten [(-2 : ℚ), 4] = ([some (-64), some 127], some 32, 1) := by
  refine ⟨?_, ?_, tqf_concrete⟩
  · rintro ⟨x, hx, hxneg⟩
    have hmin : npamin v < 0 := lt_of_le_of_lt (npamin_le v x hx) hxneg
    have hcond : ¬ ((0 : ℚ) ≤ npamin v) := not_le.mpr hmin
    have hd : (0 : ℚ) < max |npamin v| (npamax v) :=
      lt_of_lt_of_le (abs_pos.mpr (ne_of_lt hmin)) (le_max_left _ _)
    have hd0 : max |npamin v| (npamax v) ≠ 0 := ne_of_gt hd
    have heq := max_abs_eq v hne hmin
    have hd0' : max |npamin v| |npamax v| ≠ 0 := heq ▸ hd0
    refine ⟨?_, ?_, ?_⟩
    · simp [tensor_quant_flatten, hcond]
    · simp [tensor_quant_flatten, hcond, heq, hd0']
    · simp [tensor_quant_flatten, hcond, heq, hd0']
  · intro hpos hd0
    have hcond : (0 : ℚ) ≤ npamin v := hpos _ (npamin_mem v hne)
    refine ⟨?_, ?_, ?_⟩
    · simp [tensor_quant_flatten, hcond]
    · simp [tensor_quant_flatten, hcond, hd0]
    · simp [tensor_quant_flatten, hcond, hd0]

theorem tidl_C6_witness :
    tensor_quant_flatten [(-2 : ℚ), 4] = ([some (-64), some 127], some 32, 1) ∧
    (tensor_quant_flatten [(-2 : ℚ), 4]).2.2 = 1 :=
  ⟨(tidl_C6 [(-2 : ℚ), 4] (by simp)).2.2,
   ((tidl_C6 [(-2 : ℚ), 4] (by simp)).1 ⟨-2, by simp, by norm_num⟩).1⟩

/-! ## C7 -/

theorem outDataChunksAux_spec (fuel : Nat) :
    ∀ remaining new_node_ind, remaining ≤ fuel →
      (∀ c ∈ outDataChunksAux fuel remaining new_node_ind, 0 < c.1 ∧ c.1 ≤ 16) ∧
      ((outDataChunksAux fuel remaining new_node_ind).map Prod.fst).sum = remaining ∧
      (outDataChunksAux fuel remaining new_node_ind).map Prod.snd =
        List.range' new_node_ind (outDataChunksAux fuel remaining new_node_ind).length := by
  induction fuel with
  | zero =>
    intro r ind hr
    have : r = 0 := Nat.le_zero.mp hr
    subst this
    simp [outDataChunksAux]
  | succ fuel ih =>
    intro r ind hr
    by_cases h0 : r = 0
    · subst h0; simp [outDataChunksAux]
    · by_cases h16 : r < 16
      · simp [outDataChunksAux, h0, h16]
        omega
      · have hrec := ih (r - 16) (ind + 1) (by omega)
        simp only [outDataChunksAux, if_neg h0, if_neg h16, List.map_cons,
          List.sum_cons, List.length_cons, List.range'_succ]
        refine ⟨?_, ?_, ?_⟩
        · intro c hc
          rcases List.mem_cons.mp hc with h | h
          · subst h; omega
          · exact hrec.1 c h
        · have := hrec.2.1
          omega
        · rw [hrec.2.2]

/-- C7: for a Tuple node with no consumers (a true sink), the importer chunks
the flattened input list into data layers of at most 16, emitting one
sink-export call (with its linking call) per chunk; the synthetic node indices
are consecutive, starting right above the existing indices (at
`len(all_nodes) + 1`); in particular 20 flattened inputs produce exactly the
two calls with 16 and 4 inputs. -/
theorem tidl_C7 (numAllNodes : Nat) (out_nodes in_nodes : List Int)
    (hsink : out_nodes = []) :
    (∀ c ∈ tidl_import_tuple_node numAllNodes out_nodes in_nodes,
       0 < c.1 ∧ c.1 ≤ 16) ∧
    ((tidl_import_tuple_node numAllNodes out_nodes in_nodes).map Prod.fst).sum =
      in_nodes.length ∧
    (tidl_import_tuple_node numAllNodes out_nodes in_nodes).map Prod.snd =
      List.range' (numAllNodes + 1)
        (tidl_import_tuple_node numAllNodes out_nodes in_nodes).length ∧
    (in_nodes.length = 20 →
      tidl_import_tuple_node numAllNodes out_nodes in_nodes =
        [(16, numAllNodes + 1), (4, numAllNodes + 2)]) := by
  subst hsink
  have hmain := outDataChunksAux_spec in_nodes.length in_nodes.length
    (numAllNodes + 1) (le_refl _)
  simp only [tidl_import_tuple_node, List.length_nil, if_pos rfl, outDataChunks]
  refine ⟨hmain.1, hmain.2.1, hmain.2.2, ?_⟩
  intro h20
  rw [h20]
  norm_num [outDataChunksAux]

theorem tidl_C7_witness :
    tidl_import_tuple_node 30 [] (List.replicate 20 0) = [(16, 31), (4, 32)] :=
  (tidl_C7 30 [] (List.replicate 20 0) rfl).2.2.2 (by simp)

/-! ## C1 (corrected) -/

/-- Counterexample to C1 as stated: with the tool binaries absent, `enable`
returns the ORIGINAL graph (here `0`), not the partitioned graph
(`partitionPipeline 0 = 1`), with status 0. -/
theorem tidl_C1_cex :
    enable (fun n => n + 1) (fun _ => true) (0 : Nat) ⟨1, true, false, false⟩ =
      ((0 : Nat), 0) ∧
    enable (fun n => n + 1) (fun _ => true) (0 : Nat) ⟨1, true, false, false⟩ ≠
      (((fun n : Nat => n + 1) 0), 0) := by
  constructor
  · rfl
  · decide

/-- C1 (amended): if the required tool binaries are absent on disk, `enable`
returns the ORIGINAL, pre-partition graph together with the skipped status 0,
for every input that reaches the tool-availability check. -/
theorem tidl_C1 {G : Type} (partitionPipeline : G → G) (importRelay : G → Bool)
    (mod_orig : G) (env : EnableEnv)
    (hin : env.numInputs ≤ 1)
    (htools : env.toolsPathSet = true)
    (habsent : env.calibToolExists = false ∨ env.importLibExists = false) :
    enable partitionPipeline importRelay mod_orig env = (mod_orig, 0) := by
  have h1 : ¬ (1 < env.numInputs) := by omega
  rcases habsent with h | h <;>
    simp [enable, h1, htools, h]

theorem tidl_C1_witness :
    enable (fun n => n + 1) (fun _ => true) (5 : Nat) ⟨1, true, false, false⟩ =
      (5, 0) :=
  tidl_C1 _ _ _ _ (by decide) rfl (Or.inl rfl)

/-! ## C5 -/

/-- C5: with two or more named input tensors, `enable` returns the unmodified
original graph with the multi-input early-exit status (-1), and the result is
independent of the partitioning pipeline and import backend — no partitioning
step is ever attempted. -/
theorem tidl_C5 {G : Type} (partitionPipeline : G → G) (importRelay : G → Bool)
    (mod_orig : G) (env : EnableEnv)
    (hmulti : 2 ≤ env.numInputs) :
    enable partitionPipeline importRelay mod_orig env = (mod_orig, -1) ∧
    ∀ (otherPipeline : G → G) (otherImport : G → Bool),
      enable partitionPipeline importRelay mod_orig env =
        enable otherPipeline otherImport mod_orig env := by
  have h1 : 1 < env.numInputs := by omega
  constructor
  · simp [enable, h1]
  · intro p i; simp [enable, h1]

theorem tidl_C5_witness :
    enable (fun n => n + 1) (fun _ => true) (7 : Nat) ⟨2, true, true, true⟩ =
      (7, -1) :=
  (tidl_C5 _ _ _ _ (by decide)).1

/-! ## C9 -/

/-- C9: if the partitioned module contains no subgraph for the active target,
ImportRelayIR returns False regardless of the per-subgraph import work, and
the orchestrator therefore reports compilation failure (-1) and hands back the
original pre-partition graph. -/
theorem tidl_C9 (target : List Char) (partitionPipeline : RNode → RNode)
    (restOfImport : Bool) (mod_orig : RNode) (env : EnableEnv)
    (hin : env.numInputs ≤ 1)
    (htools : env.toolsPathSet = true)
    (hcal : env.calibToolExists = true)
    (hlib : env.importLibExists = true)
    (hzero : tidlSubgraphNames target (partitionPipeline mod_orig) = []) :
    ImportRelayIR target (partitionPipeline mod_orig) restOfImport = false ∧
    enable partitionPipeline
      (fun m => ImportRelayIR target m restOfImport) mod_orig env =
      (mod_orig, -1) := by
  have h1 : ¬ (1 < env.numInputs) := by omega
  have himp : ImportRelayIR target (partitionPipeline mod_orig) restOfImport = false := by
    simp [ImportRelayIR, hzero]
  exact ⟨himp, by simp [enable, h1, htools, hcal, hlib, himp]⟩

theorem tidl_C9_witness :
    enable (fun m => m) (fun m => ImportRelayIR tidlTarget m true) c9main
      ⟨1, true, true, true⟩ = (c9main, -1) :=
  (tidl_C9 tidlTarget (fun m => m) true c9main ⟨1, true, true, true⟩
    (by decide) rfl rfl rfl (by decide)).2

/-! ## C3 (corrected) -/

/-- Counterexample to C3 as stated: on a stdout that passes the error checks
and contains the marker phrase twice, the code parses the count and scales
from the FIRST occurrence (yielding `[7]`), while parsing from the last
occurrence — as the claim states — would yield `[100, 200]`. -/
theorem tidl_C3_cex :
    calib_find_outputs c3cexConsole [] = CalibOutcome.ok [7] ∧
    calib_find_outputs_lastOcc c3cexConsole [] = CalibOutcome.ok [100, 200] ∧
    CalibOutcome.ok ([7] : List Int) ≠ CalibOutcome.ok [100, 200] := by
  refine ⟨by decide, by decide, by decide⟩

/-- C3 (amended): on stdout passing the error checks, the declared output
count and the per-output integer scales are parsed from the FIRST occurrence
of the marker phrase (the last occurrence is only used, via `rfind`, to test
that the marker is present at all), and a mismatch between the declared count
and the number of parsed integers is a failure returning no result; the
spec's single-occurrence scenario parses to `[100, 200]`. -/
theorem tidl_C3 (console err pre lastLine cnt outQuants : List Char) (n : Int)
    (h1 : containsTok errTokLow console = false)
    (h2 : containsTok errTokUp console = false)
    (h3 : err = [])
    (h4 : splitFirst output_dataQ_token console = some (pre, lastLine))
    (h5 : splitFirst outQSepTok lastLine = some (cnt, outQuants))
    (h6 : pyInt cnt = some n) :
    (n ≠ ((parsedScales outQuants).length : Int) →
      calib_find_outputs console err = CalibOutcome.failure) ∧
    (n = ((parsedScales outQuants).length : Int) →
      calib_find_outputs console err = CalibOutcome.ok (parsedScales outQuants)) ∧
    calib_find_outputs c3specConsole [] = CalibOutcome.ok [100, 200] := by
  subst h3
  refine ⟨?_, ?_, by decide⟩ <;> intro hn <;>
    simp [calib_find_outputs, h1, h2, h4, h5, h6, hn]

theorem tidl_C3_witness :
    calib_find_outputs c3specConsole [] =
      CalibOutcome.ok (parsedScales c3wQuants) :=
  (tidl_C3 c3specConsole [] c3wPre c3wLast c3wCnt c3wQuants 2
    (by decide) (by decide) rfl (by decide) (by decide) (by decide)).2.1 (by decide)

/-! ## Pruning helper lemmas (C2, C4) -/

theorem renameSub_tagged (compiler m : List Char) (s : Sub) :
    isTagged compiler (renameSub m s) = isTagged compiler s := rfl

theorem sgRemove_countP (R : List (List Char)) (p : Sub → Bool)
    (hp : ∀ m s, p (renameSub m s) = p s) :
    ∀ (subs : List Sub) (c : Nat),
      (sgRemove R subs c).countP p =
        subs.countP (fun s => p s && !decide (s.name ∈ R)) := by
  intro subs
  induction subs with
  | nil => intro c; simp [sgRemove]
  | cons s rest ih =>
    intro c
    by_cases hm : s.name ∈ R
    · simp [sgRemove, hm, List.countP_cons, ih]
    · simp [sgRemove, hm, List.countP_cons, ih, hp]

theorem sgRemove_mem (R : List (List Char)) :
    ∀ (subs : List Sub) (c : Nat) (s' : Sub), s' ∈ sgRemove R subs c →
      ∃ s ∈ subs, ∃ m, s' = renameSub m s := by
  intro subs
  induction subs with
  | nil => intro c s' h; simp [sgRemove] at h
  | cons s rest ih =>
    intro c s' h
    by_cases hm : s.name ∈ R
    · rw [sgRemove, if_pos hm] at h
      obtain ⟨t, ht, m, hm2⟩ := ih _ _ h
      exact ⟨t, List.mem_cons_of_mem s ht, m, hm2⟩
    · rw [sgRemove, if_neg hm] at h
      rcases List.mem_cons.mp h with h1 | h1
      · exact ⟨s, List.mem_cons_self s rest, _, h1⟩
      · obtain ⟨t, ht, m, hm2⟩ := ih _ _ h1
        exact ⟨t, List.mem_cons_of_mem s ht, m, hm2⟩

theorem name_inj_of_nodup :
    ∀ (subs : List Sub), (subs.map Sub.name).Nodup →
      ∀ a ∈ subs, ∀ b ∈ subs, a.name = b.name → a = b := by
  intro subs
  induction subs with
  | nil => intro _ a ha; simp at ha
  | cons s rest ih =>
    intro hnd a ha b hb hab
    rw [List.map_cons, List.nodup_cons] at hnd
    rcases List.mem_cons.mp ha with h1 | h1 <;> rcases List.mem_cons.mp hb with h2 | h2
    · rw [h1, h2]
    · exfalso
      apply hnd.1
      rw [h1] at hab
      rw [hab]
      exact List.mem_map_of_mem Sub.name h2
    · exfalso
      apply hnd.1
      rw [h2] at hab
      rw [← hab]
      exact List.mem_map_of_mem Sub.name h1
    · exact ih hnd.2 a h1 b h2 hab

theorem countP_mem_names :
    ∀ (subs : List Sub) (R : List (List Char)),
      (subs.map Sub.name).Nodup → R.Nodup →
      (∀ r ∈ R, r ∈ subs.map Sub.name) →
      subs.countP (fun s => decide (s.name ∈ R)) = R.length := by
  intro subs
  induction subs with
  | nil =>
    intro R _ _ hsub
    have hR : R = [] :=
      List.eq_nil_iff_forall_not_mem.mpr (fun r hr => by simpa using hsub r hr)
    subst hR; simp
  | cons s rest ih =>
    intro R hnd hR hsub
    rw [List.map_cons, List.nodup_cons] at hnd
    by_cases hm : s.name ∈ R
    · have hcongr : rest.countP (fun t => decide (t.name ∈ R)) =
          rest.countP (fun t => decide (t.name ∈ R.erase s.name)) := by
        apply List.countP_congr
        intro t ht
        have htne : t.name ≠ s.name := by
          intro he
          exact hnd.1 (he ▸ List.mem_map_of_mem Sub.name ht)
        simp [List.mem_erase_of_ne htne]
      have hsub2 : ∀ r ∈ R.erase s.name, r ∈ rest.map Sub.name := by
        intro r hr
        have h1 := (hR.mem_erase_iff).mp hr
        have hx := hsub r h1.2
        rw [List.map_cons] at hx
        rcases List.mem_cons.mp hx with h2 | h2
        · exact absurd h2 h1.1
        · exact h2
      have hrec := ih (R.erase s.name) hnd.2 (hR.erase _) hsub2
      have hlen : (R.erase s.name).length = R.length - 1 :=
        List.length_erase_of_mem hm
      have hRpos : 1 ≤ R.length := List.length_pos.mpr (by
        intro he; rw [he] at hm; simp at hm)
      rw [List.countP_cons, hcongr, hrec]
      simp [hm]
      omega
    · have hsub2 : ∀ r ∈ R, r ∈ rest.map Sub.name := by
        intro r hr
        have hx := hsub r hr
        rw [List.map_cons] at hx
        rcases List.mem_cons.mp hx with h2 | h2
        · exact absurd (h2 ▸ hr) hm
        · exact h2
      rw [List.countP_cons]
      simp [hm]
      exact ih R hnd.2 hR hsub2

theorem countP_and_not_add (p q : Sub → Bool) :
    ∀ l : List Sub,
      l.countP (fun a => p a && !q a) + l.countP (fun a => p a && q a) =
        l.countP p := by
  intro l
  induction l with
  | nil => simp
  | cons a t ih =>
    simp only [List.countP_cons]
    cases hp : p a <;> cases hq : q a <;> simp [hp, hq] <;> omega

theorem removeNames_sub (compiler : List Char) (K : Nat) (subs : List Sub) :
    ∀ r ∈ removeNamesOf compiler K subs,
      r ∈ (subs.filter (isTagged compiler)).map Sub.name := by
  intro r hr
  obtain ⟨d, hd, rfl⟩ := List.mem_map.mp hr
  have hd2 : d ∈ List.insertionSort macsLe (subs.filter (isTagged compiler)) := by
    unfold pyNegSlice at hd
    split at hd
    · simp at hd
    · exact List.take_subset _ _ hd
  exact List.mem_map_of_mem Sub.name
    ((List.perm_insertionSort macsLe _).subset hd2)

theorem removeNames_nodup (compiler : List Char) (K : Nat) (subs : List Sub)
    (hnd : (subs.map Sub.name).Nodup) :
    (removeNamesOf compiler K subs).Nodup := by
  have h1 : ((subs.filter (isTagged compiler)).map Sub.name).Nodup :=
    ((List.filter_sublist subs).map Sub.name).nodup hnd
  have h2 : ((List.insertionSort macsLe
      (subs.filter (isTagged compiler))).map Sub.name).Nodup :=
    (((List.perm_insertionSort macsLe _).map Sub.name).nodup_iff).mpr h1
  unfold removeNamesOf pyNegSlice
  split
  · simp
  · rw [List.map_take]
    exact h2.sublist (List.take_sublist _ _)

theorem removeNames_length (compiler : List Char) (K : Nat) (subs : List Sub)
    (hK : 1 ≤ K) :
    (removeNamesOf compiler K subs).length =
      (subs.filter (isTagged compiler)).length - K := by
  unfold removeNamesOf pyNegSlice
  rw [if_neg (by omega : ¬ K = 0)]
  rw [List.length_map, List.length_take, List.length_insertionSort]
  omega

/-! ## C2 (corrected) -/

/-- Counterexample to C2 as stated: with budget `K = 0` and one tagged
subgraph, Python's `subgraph_with_macs[:-0]` is the empty list, so nothing is
removed and 1 tagged subgraph remains instead of `min(0, 1) = 0`. -/
theorem tidl_C2_cex :
    countTagged tidlTarget (PruneSubgraphs tidlTarget 0 [c2cexSub]) = 1 ∧
    min 0 (countTagged tidlTarget [c2cexSub]) = 0 ∧ (1 : Nat) ≠ 0 := by
  refine ⟨by decide, by decide, by decide⟩

/-- C2 (amended): for every module (with well-formed, distinct subgraph names,
and whose tagged subgraphs each have exactly one non-tuple parameter — the
postcondition of the preceding arity pruning) and every budget `K ≥ 1`,
cost-based pruning leaves exactly `min(K, number_of_tagged_subgraphs)` tagged
subgraphs, and each tagged survivor still has a single non-tuple parameter.
For `K = 0` the `[:-0]` slice removes nothing and all tagged subgraphs
survive. -/
theorem tidl_C2 (compiler : List Char) (K : Nat) (subs : List Sub)
    (hK : 1 ≤ K)
    (hnd : (subs.map Sub.name).Nodup)
    (harity : ∀ s ∈ subs, isTagged compiler s = true →
      s.numParams = 1 ∧ s.paramIsTuple = false) :
    countTagged compiler (PruneSubgraphs compiler K subs) =
      min K (countTagged compiler subs) ∧
    ∀ s ∈ PruneSubgraphs compiler K subs, isTagged compiler s = true →
      s.numParams = 1 ∧ s.paramIsTuple = false := by
  constructor
  · have hRsubT := removeNames_sub compiler K subs
    have hRsub : ∀ r ∈ removeNamesOf compiler K subs, r ∈ subs.map Sub.name := by
      intro r hr
      obtain ⟨d, hd, rfl⟩ := List.mem_map.mp (hRsubT r hr)
      exact List.mem_map_of_mem Sub.name (List.mem_of_mem_filter hd)
    have hmem_tag : ∀ s ∈ subs, s.name ∈ removeNamesOf compiler K subs →
        isTagged compiler s = true := by
      intro s hs hmem
      obtain ⟨d, hd, hdn⟩ := List.mem_map.mp (hRsubT _ hmem)
      have hds : d ∈ subs := List.mem_of_mem_filter hd
      have heq : s = d := name_inj_of_nodup subs hnd s hs d hds hdn.symm
      rw [heq]
      exact (List.mem_filter.mp hd).2
    have h1 : countTagged compiler (PruneSubgraphs compiler K subs) =
        subs.countP (fun s => isTagged compiler s &&
          !decide (s.name ∈ removeNamesOf compiler K subs)) := by
      rw [countTagged, PruneSubgraphs, ← List.countP_eq_length_filter]
      exact sgRemove_countP (removeNamesOf compiler K subs) (isTagged compiler)
        (fun m s => renameSub_tagged compiler m s) subs 0
    have h2 := countP_and_not_add (isTagged compiler)
      (fun s => decide (s.name ∈ removeNamesOf compiler K subs)) subs
    have h3 : subs.countP (fun s => isTagged compiler s &&
        decide (s.name ∈ removeNamesOf compiler K subs)) =
        subs.countP (fun s => decide (s.name ∈ removeNamesOf compiler K subs)) := by
      apply List.countP_congr
      intro s hs
      by_cases hm : s.name ∈ removeNamesOf compiler K subs
      · simp [hm, hmem_tag s hs hm]
      · simp [hm]
    have h4 : subs.countP
        (fun s => decide (s.name ∈ removeNamesOf compiler K subs)) =
        (removeNamesOf compiler K subs).length :=
      countP_mem_names subs _ hnd (removeNames_nodup compiler K subs hnd) hRsub
    have h5 : subs.countP (isTagged compiler) = countTagged compiler subs :=
      (List.countP_eq_length_filter _ _).symm ▸ rfl
    have h6 := removeNames_length compiler K subs hK
    have h7 : (subs.filter (isTagged compiler)).length =
        countTagged compiler subs := rfl
    rw [h1]
    omega
  · intro s' hs' htag
    obtain ⟨s, hs, m, rfl⟩ := sgRemove_mem _ subs 0 s' hs'
    have ht : isTagged compiler s = true := by
      rwa [renameSub_tagged] at htag
    exact harity s hs ht

theorem tidl_C2_witness :
    countTagged tidlTarget (PruneSubgraphs tidlTarget 1 [c2cexSub]) =
      min 1 (countTagged tidlTarget [c2cexSub]) :=
  (tidl_C2 tidlTarget 1 [c2cexSub] (by decide) (by decide) (by decide)).1

/-! ## C4 (corrected) -/

theorem sgRemove_enumFrom (R : List (List Char)) :
    ∀ (subs : List Sub) (c : Nat),
      sgRemove R subs c =
        (List.enumFrom c (subs.filter (fun s => !decide (s.name ∈ R)))).map
          (fun p => renameSub (newNameOf p.2.name p.1) p.2) := by
  intro subs
  induction subs with
  | nil => intro c; simp [sgRemove]
  | cons s rest ih =>
    intro c
    by_cases hm : s.name ∈ R
    · simp [sgRemove, hm, ih, List.filter_cons]
    · simp [sgRemove, hm, ih (c + 1), List.filter_cons]

/-- Counterexample to C4 as stated: a surviving subgraph NOT carrying the
active compiler tag ("ccomp_7", untagged for "tidl", not listed for removal)
is nonetheless renumbered to "ccomp_1" and its internal variable renamed to
"ccomp_1_i0" by the shared sequential counter of SubgraphRemover. -/
theorem tidl_C4_cex :
    (PruneSubgraphs tidlTarget 4 c4subs).map (fun s => (s.name, s.varNames)) =
      [("tidl_0".toList, ["tidl_0_i0".toList]),
       ("ccomp_1".toList, ["ccomp_1_i0".toList])] ∧
    c4untagged.name = "ccomp_7".toList ∧
    isTagged tidlTarget c4untagged = false ∧
    c4untagged ∈ c4subs ∧
    ¬ c4untagged.name ∈ removeNamesOf tidlTarget 4 c4subs := by
  refine ⟨by decide, by decide, by decide, by decide, by decide⟩

/-- C4 (amended): during cost-based pruning EVERY surviving subgraph — whether
or not it carries the active compiler tag — is renumbered by the shared
sequential counter and has its internal variables renamed: the j-th survivor
(0-based, in main's call order) is copied as
`renameSub (newNameOf name j)`; a non-tagged survivor keeps its name and
variables only when they already coincide with the assigned ones. -/
theorem tidl_C4 (compiler : List Char) (K : Nat) (subs : List Sub) :
    PruneSubgraphs compiler K subs =
      (List.enumFrom 0 (survivorsOf compiler K subs)).map
        (fun p => renameSub (newNameOf p.2.name p.1) p.2) := by
  rw [PruneSubgraphs, survivorsOf]
  exact sgRemove_enumFrom _ subs 0

/-! ## C8: post-order indexing lemmas -/

theorem postOrderSeq_concat (e : RNode) : ∃ l, postOrderSeq e = l ++ [e] := by
  cases e with
  | opId s => exact ⟨[], rfl⟩
  | gvar s => exact ⟨[], rfl⟩
  | var s => exact ⟨[], rfl⟩
  | const i => exact ⟨[], rfl⟩
  | call op args =>
    exact ⟨postOrderSeq op ++ postOrderSeqList args, by
      simp only [postOrderSeq, List.append_assoc]⟩
  | tup fs => exact ⟨postOrderSeqList fs, rfl⟩
  | proj t i => exact ⟨postOrderSeq t, rfl⟩

theorem self_mem_postOrderSeq (e : RNode) : e ∈ postOrderSeq e := by
  obtain ⟨l, hl⟩ := postOrderSeq_concat e
  rw [hl]
  simp

/-- Every element of a node list occurs in the list's post-order sequence. -/
def mem_postOrderSeqList : (l : RNodeList) → ∀ x ∈ l.toList, x ∈ postOrderSeqList l
  | RNodeList.nil => by intro x hx; simp [RNodeList.toList] at hx
  | RNodeList.cons y ys => by
      intro x hx
      rw [RNodeList.toList] at hx
      simp only [postOrderSeqList]
      rcases List.mem_cons.mp hx with h | h
      · subst h
        exact List.mem_append.mpr (Or.inl (self_mem_postOrderSeq x))
      · exact List.mem_append.mpr (Or.inr (mem_postOrderSeqList ys x h))

theorem CB_append :
    ∀ (s t pre : List RNode), CB pre (s ++ t) ↔ (CB pre s ∧ CB (pre ++ s) t) := by
  intro s
  induction s with
  | nil => intro t pre; simp [CB]
  | cons n s' ih =>
    intro t pre
    simp only [List.cons_append, List.append_eq, CB]
    have hassoc : (pre ++ [n]) ++ s' = pre ++ (n :: s') := by simp
    rw [ih t (pre ++ [n]), hassoc, and_assoc]

mutual
/-- Every post-order sequence satisfies the children-before-node property. -/
def cb_postOrderSeq : (e : RNode) → (pre : List RNode) → CB pre (postOrderSeq e)
  | RNode.opId s, pre => by simp [postOrderSeq, CB, childrenOf]
  | RNode.gvar s, pre => by simp [postOrderSeq, CB, childrenOf]
  | RNode.var s, pre => by simp [postOrderSeq, CB, childrenOf]
  | RNode.const i, pre => by simp [postOrderSeq, CB, childrenOf]
  | RNode.call op args, pre => by
      have h1 := cb_postOrderSeq op pre
      have h2 := cb_postOrderSeqList args (pre ++ postOrderSeq op)
      simp only [postOrderSeq]
      rw [show postOrderSeq op ++ (postOrderSeqList args ++ [RNode.call op args]) =
        (postOrderSeq op ++ postOrderSeqList args) ++ [RNode.call op args] by
          simp [List.append_assoc]]
      rw [CB_append, CB_append]
      refine ⟨⟨h1, h2⟩, ?_, trivial⟩
      intro c hc
      simp only [childrenOf] at hc
      rcases List.mem_cons.mp hc with h | h
      · subst h
        exact List.mem_append.mpr (Or.inr (List.mem_append.mpr
          (Or.inl (self_mem_postOrderSeq c))))
      · exact List.mem_append.mpr (Or.inr (List.mem_append.mpr
          (Or.inr (mem_postOrderSeqList args c h))))
  | RNode.tup fs, pre => by
      have h2 := cb_postOrderSeqList fs pre
      simp only [postOrderSeq]
      rw [CB_append]
      refine ⟨h2, ?_, trivial⟩
      intro c hc
      simp only [childrenOf] at hc
      exact List.mem_append.mpr (Or.inr (mem_postOrderSeqList fs c hc))
  | RNode.proj t i, pre => by
      have h1 := cb_postOrderSeq t pre
      simp only [postOrderSeq]
      rw [CB_append]
      refine ⟨h1, ?_, trivial⟩
      intro c hc
      simp only [childrenOf] at hc
      rw [List.mem_singleton] at hc
      subst hc
      exact List.mem_append.mpr (Or.inr (self_mem_postOrderSeq c))
/-- List version of `cb_postOrderSeq`. -/
def cb_postOrderSeqList :
    (l : RNodeList) → (pre : List RNode) → CB pre (postOrderSeqList l)
  | RNodeList.nil, pre => by simp [postOrderSeqList, CB]
  | RNodeList.cons x xs, pre => by
      have h1 := cb_postOrderSeq x pre
      have h2 := cb_postOrderSeqList xs (pre ++ postOrderSeq x)
      simp only [postOrderSeqList]
      rw [CB_append]
      exact ⟨h1, h2⟩
end

theorem hasKey_iff (d : List (RNode × Nat)) (n : RNode) :
    hasKey d n = true ↔ ∃ p ∈ d, p.1 = n := by
  simp [hasKey]

theorem hasKey_append (d : List (RNode × Nat)) (x : RNode × Nat) (n : RNode)
    (h : hasKey d n = true) : hasKey (d ++ [x]) n = true := by
  rw [hasKey_iff] at h ⊢
  obtain ⟨p, hp, he⟩ := h
  exact ⟨p, List.mem_append.mpr (Or.inl hp), he⟩

theorem snd_lt_of_range (d : List (RNode × Nat))
    (hr : d.map Prod.snd = List.range d.length) (q : RNode × Nat) (hq : q ∈ d) :
    q.2 < d.length := by
  have hm : q.2 ∈ d.map Prod.snd := List.mem_map_of_mem Prod.snd hq
  rw [hr] at hm
  exact List.mem_range.mp hm

theorem traverse_preserves (n : RNode) (d : List (RNode × Nat)) (pre : List RNode)
    (hg : GoodDict d) (hs : SeenDict d pre) (hc : ∀ c ∈ childrenOf n, c ∈ pre) :
    GoodDict (traverse_expr n d) ∧ SeenDict (traverse_expr n d) (pre ++ [n]) ∧
    ∀ p ∈ d, p ∈ traverse_expr n d := by
  by_cases hk : hasKey d n = true
  · rw [traverse_expr, if_pos hk]
    refine ⟨hg, ?_, fun p hp => hp⟩
    intro m hm hop
    rcases List.mem_append.mp hm with h | h
    · exact hs m h hop
    · rw [List.mem_singleton] at h; subst h; exact hk
  · by_cases hop : isOpNode n = true
    · rw [traverse_expr, if_neg hk, if_pos hop]
      refine ⟨hg, ?_, fun p hp => hp⟩
      intro m hm hop2
      rcases List.mem_append.mp hm with h | h
      · exact hs m h hop2
      · rw [List.mem_singleton] at h; subst h
        rw [hop] at hop2; cases hop2
    · have hopf : isOpNode n = false := by
        cases h2 : isOpNode n
        · rfl
        · exact absurd h2 hop
      rw [traverse_expr, if_neg hk, if_neg hop]
      obtain ⟨hrange, hnd, hops, hord⟩ := hg
      have hkn : ∀ p ∈ d, p.1 ≠ n := by
        intro p hp he
        exact hk ((hasKey_iff d n).mpr ⟨p, hp, he⟩)
      refine ⟨⟨?_, ?_, ?_, ?_⟩, ?_, ?_⟩
      · rw [List.map_append, List.length_append, hrange]
        simp [List.range_succ]
      · rw [List.map_append, List.nodup_append]
        refine ⟨hnd, List.nodup_singleton _, ?_⟩
        intro a ha hb
        rw [List.map_singleton, List.mem_singleton] at hb
        obtain ⟨p, hp, hp2⟩ := List.mem_map.mp ha
        exact hkn p hp (hp2.trans hb)
      · intro p hp
        rcases List.mem_append.mp hp with h | h
        · exact hops p h
        · rw [List.mem_singleton] at h; subst h; exact hopf
      · intro p hp c hcc hcop
        rcases List.mem_append.mp hp with h | h
        · obtain ⟨q, hq, hq1, hq2⟩ := hord p h c hcc hcop
          exact ⟨q, List.mem_append.mpr (Or.inl hq), hq1, hq2⟩
        · rw [List.mem_singleton] at h; subst h
          have hcpre : c ∈ pre := hc c hcc
          have hck := hs c hcpre hcop
          obtain ⟨q, hq, hq1⟩ := (hasKey_iff d c).mp hck
          exact ⟨q, List.mem_append.mpr (Or.inl hq), hq1,
            snd_lt_of_range d hrange q hq⟩
      · intro m hm hop2
        rcases List.mem_append.mp hm with h | h
        · exact hasKey_append d _ m (hs m h hop2)
        · rw [List.mem_singleton] at h; subst h
          rw [hasKey_iff]
          exact ⟨(m, d.length), List.mem_append.mpr (Or.inr (by simp)), rfl⟩
      · intro p hp
        exact List.mem_append.mpr (Or.inl hp)

theorem goodDict_nil : GoodDict [] := by
  refine ⟨rfl, List.nodup_nil, ?_, ?_⟩ <;> intro p hp <;> simp at hp

theorem dictFold_inv :
    ∀ (s : List RNode) (pre : List RNode) (d : List (RNode × Nat)),
      CB pre s → GoodDict d → SeenDict d pre →
      GoodDict (dictFold s d) ∧ SeenDict (dictFold s d) (pre ++ s) := by
  intro s
  induction s with
  | nil =>
    intro pre d _ hg hs
    simp only [dictFold, List.foldl_nil, List.append_nil]
    exact ⟨hg, hs⟩
  | cons n s' ih =>
    intro pre d hcb hg hs
    simp only [CB] at hcb
    obtain ⟨hch, hcb'⟩ := hcb
    have htp := traverse_preserves n d pre hg hs hch
    have hrec := ih (pre ++ [n]) (traverse_expr n d) hcb' htp.1 htp.2.1
    simp only [dictFold, List.foldl_cons] at hrec ⊢
    refine ⟨hrec.1, ?_⟩
    rw [show pre ++ n :: s' = (pre ++ [n]) ++ s' by simp]
    exact hrec.2

theorem dictFold_noop :
    ∀ (s : List RNode) (d : List (RNode × Nat)),
      (∀ m ∈ s, isOpNode m = true ∨ hasKey d m = true) → dictFold s d = d := by
  intro s
  induction s with
  | nil => intro d _; rfl
  | cons n s' ih =>
    intro d h
    have hn := h n (List.mem_cons_self n s')
    have hid : traverse_expr n d = d := by
      rcases hn with h1 | h1
      · by_cases hk : hasKey d n = true
        · rw [traverse_expr, if_pos hk]
        · rw [traverse_expr, if_neg hk, if_pos h1]
      · rw [traverse_expr, if_pos h1]
    simp only [dictFold, List.foldl_cons, hid]
    exact ih d (fun m hm => h m (List.mem_cons_of_mem n hm))

/-- C8: the Node Index Map assigns indices contiguously from 0 in insertion
order; operator-identifier nodes are never indexed; re-running the whole
post-order traversal over an already-built map is a no-op (revisits change
nothing); and indexing is in strict post-order — every indexed node's
non-operator sub-expressions carry strictly smaller indices. -/
theorem tidl_C8 (e : RNode) :
    (nodeIndexMap e).map Prod.snd = List.range (nodeIndexMap e).length ∧
    (∀ p ∈ nodeIndexMap e, isOpNode p.1 = false) ∧
    dictFold (postOrderSeq e) (nodeIndexMap e) = nodeIndexMap e ∧
    (∀ p ∈ nodeIndexMap e, ∀ c ∈ childrenOf p.1, isOpNode c = false →
      ∃ q ∈ nodeIndexMap e, q.1 = c ∧ q.2 < p.2) := by
  have hmain := dictFold_inv (postOrderSeq e) [] [] (cb_postOrderSeq e [])
    goodDict_nil (by intro m hm hop; simp at hm)
  have hg : GoodDict (nodeIndexMap e) := hmain.1
  have hs : SeenDict (nodeIndexMap e) (postOrderSeq e) := by
    have h2 := hmain.2
    rw [List.nil_append] at h2
    exact h2
  refine ⟨hg.1, hg.2.2.1, ?_, hg.2.2.2⟩
  apply dictFold_noop
  intro m hm
  by_cases hop : isOpNode m = true
  · exact Or.inl hop
  · right
    refine hs m hm ?_
    cases h2 : isOpNode m
    · rfl
    · exact absurd h2 hop

end Tidl
